import Mathlib

/-!
Verification development for the NiLab structured-record text engine
(STAR/LST parsing, filtering, binning and ID renumbering).

Embedding conventions:
* A token is a whitespace-free run of characters, modelled as a list of
  characters (`Tok`).  A text line is modelled as its whitespace-token
  decomposition (`Line`); the round-trip law under study is explicitly
  stated up to raw whitespace, so the token decomposition is exactly the
  granularity at which the source operates (every structural decision in
  the Python code is taken on `line.strip()` prefixes, i.e. on the first
  token, and data lines are split on whitespace runs).
* Python floats are modelled by `Option Rat`: `some q` is a finite value,
  `none` a non-finite one.  The only use of non-finiteness in the source
  is the `isfinite` guard, which is evaluated before any comparison.
* Fallible code (`raise` / `sys.exit`) is modelled with `Option`.
-/

namespace NiLab

abbrev Tok := List Char

abbrev Line := List Tok

/-- Lower-casing of a token, mirroring the `.lower()` calls of the source. -/
def lowerTok (t : Tok) : Tok := t.map Char.toLower

/-- Does the stripped line start with `data_` (case-insensitive)?  Mirrors
`line.lower().startswith(str_data)` in `divide_histogram.py`. -/
def isDataLine (l : Line) : Bool :=
  match l with
  | [] => false
  | t :: _ => "data_".toList.isPrefixOf (lowerTok t)

/-- Does the stripped line start with `loop_` (case-insensitive)?  Mirrors
`line.lower().startswith(str_loop)` in `find_loops_in_star`. -/
def isLoopLine (l : Line) : Bool :=
  match l with
  | [] => false
  | t :: _ => "loop_".toList.isPrefixOf (lowerTok t)

/-- Does the stripped line start with an underscore?  Mirrors
`lines[j].strip().startswith(str_underscore)` in `find_loops_in_star`. -/
def isHeaderLine (l : Line) : Bool :=
  match l with
  | [] => false
  | t :: _ =>
    match t with
    | [] => false
    | c :: _ => c = '_'

/-- Does the stripped line start with a hash, i.e. is it a comment line? -/
def isCommentLine (l : Line) : Bool :=
  match l with
  | [] => false
  | t :: _ =>
    match t with
    | [] => false
    | c :: _ => c = '#'

/-- Name of the block opened by a `data_<name>` line: the first token with
the five characters of the `data_` prefix removed. -/
def blockName (l : Line) : Tok :=
  match l with
  | [] => []
  | t :: _ => t.drop 5

/-- Strip a single leading underscore from a key or column token, the
in-memory model stores column names unprefixed. -/
def stripKey (t : Tok) : Tok :=
  match t with
  | '_' :: rest => rest
  | _ => t

/-- Record model of one STAR block: either a key to scalar-value block or a
`loop_` table with a column list and token rows. -/
inductive Block where
  | scalar (entries : List (Tok × List Tok))
  | table (cols : List Tok) (rows : List Line)
deriving DecidableEq

/-- Record model of a STAR document: ordered association of block names to
blocks (order is significant). -/
abbrev StarDocument := List (Tok × Block)

/-- Split the input lines at `data_` lines into named block bodies; lines
before the first `data_` line are structurally insignificant and dropped.
The scanning mirrors the line loop of `find_loops_in_star`, lifted to the
document level described in the spec (the document-level block naming in
the repository is done by the external EMAN2star library). -/
def splitBlocks (ls : List Line) : List (Tok × List Line) :=
  match ls with
  | [] => []
  | l :: rest =>
    if isDataLine l then
      (blockName l, rest.takeWhile (fun x => !isDataLine x)) ::
        splitBlocks (rest.dropWhile (fun x => !isDataLine x))
    else
      splitBlocks rest
termination_by ls.length
decreasing_by
  · exact Nat.lt_succ_of_le ((List.dropWhile_sublist _).length_le)
  · exact Nat.lt_succ_self _

/-- Cut a block body at its `loop_` lines: each returned segment is the run
of lines following one `loop_` line, up to the next `loop_` line.  Mirrors
the outer `while` loop of `find_loops_in_star`, whose scan resumes at
`data_end` and skips every line until the next `loop_`. -/
def loopSegments (ls : List Line) : List (List Line) :=
  match ls with
  | [] => []
  | l :: rest =>
    if isLoopLine l then
      rest.takeWhile (fun x => !isLoopLine x) ::
        loopSegments (rest.dropWhile (fun x => !isLoopLine x))
    else
      loopSegments rest
termination_by ls.length
decreasing_by
  · exact Nat.lt_succ_of_le ((List.dropWhile_sublist _).length_le)
  · exact Nat.lt_succ_self _

/-- Scalar entries of a block body with no `loop_`: every non-empty
non-comment line is split into its key token (unprefixed) and the rest. -/
def parseScalarEntries (ls : List Line) : List (Tok × List Tok) :=
  ls.filterMap fun l =>
    match l with
    | [] => none
    | t :: rest => if isCommentLine (t :: rest) then none else some (stripKey t, rest)

/-- Parse one `loop_` segment, mirroring `find_loops_in_star` together with
`parse_star_loop_values`: header lines are the leading underscore lines
(column name is the first token, unprefixed); the data region runs until
the next underscore line; blank lines inside the data region are dropped;
every other line becomes a row of tokens. -/
def parseLoopSegment (ls : List Line) : Block :=
  let headers := ls.takeWhile (fun l => isHeaderLine l)
  let body := ls.dropWhile (fun l => isHeaderLine l)
  let dataRegion := body.takeWhile (fun l => !isHeaderLine l)
  Block.table (headers.map (fun l => stripKey (l.headD [])))
    (dataRegion.filter (fun l => !l.isEmpty))

/-- Parse one named block body: with no `loop_` the body is a scalar block;
otherwise each `loop_` segment becomes a table (scalar entries appearing
before the first `loop_`, a shape no RELION file and no serializer output
has, are kept as a separate scalar block). -/
def parseBlockBody (ls : List Line) : List Block :=
  let pre := ls.takeWhile (fun l => !isLoopLine l)
  let entries := parseScalarEntries pre
  let segs := loopSegments ls
  if segs.isEmpty then [Block.scalar entries]
  else (if entries.isEmpty then [] else [Block.scalar entries]) ++ segs.map parseLoopSegment

/-- Parse(text) : StarDocument, at token-line granularity. -/
def parse (ls : List Line) : StarDocument :=
  (splitBlocks ls).flatMap fun nb => (parseBlockBody nb.2).map fun b => (nb.1, b)

/-- Fuel-driven decimal rendering (structural recursion so that concrete
instances reduce inside the kernel). -/
def natDigitsGo (fuel n : ℕ) : List Char :=
  match fuel with
  | 0 => []
  | fuel + 1 =>
    if n < 10 then [Nat.digitChar n]
    else natDigitsGo fuel (n / 10) ++ [Nat.digitChar (n % 10)]

/-- Decimal digit characters of a natural number, the rendering used by the
Python `str` conversion inside the serializers. -/
def natDigits (n : ℕ) : List Char := natDigitsGo (n + 1) n

/-- Numeric value of a digit character. -/
def charVal (c : Char) : ℕ := c.toNat - 48

/-- Value denoted by a digit string, most significant digit first. -/
def digitsVal (ds : List Char) : ℕ := ds.foldl (fun a c => a * 10 + charVal c) 0

/-- Header lines emitted for a table block: `_<col> #<i+1>`, as written by
`filter_star` in `lst2star.py`. -/
def headerLines (cols : List Tok) : List Line :=
  cols.enum.map fun p => ['_' :: p.2, '#' :: natDigits (p.1 + 1)]

/-- Lines of a serialized block after its `data_<name>` line. -/
def bodyLines (b : Block) : List Line :=
  match b with
  | Block.scalar entries => [] :: (entries.map (fun e => ('_' :: e.1) :: e.2) ++ [[]])
  | Block.table cols rows => [] :: ["loop_".toList] :: (headerLines cols ++ rows ++ [[]])

/-- Serialize one named block: `data_<name>`, blank line, then for a table
`loop_`, one `_<col> #<i+1>` line per column, one token row per row and a
trailing blank line, exactly as the writer of `filter_star`; scalar blocks
are written as `_<key> value` lines per the spec. -/
def serializeBlock (nb : Tok × Block) : List Line :=
  ["data_".toList ++ nb.1] :: bodyLines nb.2

/-- Serialize(StarDocument) : text, at token-line granularity. -/
def serialize (d : StarDocument) : List Line :=
  d.flatMap serializeBlock

/-- Left-pad a token with zeros to a given width, the Python `zfill`. -/
def zfill (w : ℕ) (t : Tok) : Tok := List.replicate (w - t.length) '0' ++ t

/-- RELION image tag built by `read_lst` in `lst2star.py` (and `read_lst2`
in the deprecated script): the zero-based LST index plus one, rendered in
decimal, zero-padded to width 6, followed by an at sign and the path. -/
def mkImageTag (imageId : ℕ) (path : Tok) : Tok :=
  zfill 6 (natDigits (imageId + 1)) ++ '@' :: path

/-- First contiguous digit run of a string as an integer, mirroring
`extract_digits_int` of `delete_ogs.py` / `split_matchingstar.py`
(a regex search for one or more digits). -/
def extract_digits_int (s : Tok) : Option ℕ :=
  let fromDigit := s.dropWhile (fun c => !c.isDigit)
  if fromDigit.isEmpty then none
  else some (digitsVal (fromDigit.takeWhile (fun c => c.isDigit)))

/-- Replace the first contiguous digit run of a string by the decimal
rendering of a number, leaving everything else unchanged; identity when
the string holds no digit.  Mirrors `replace_first_digit_group`. -/
def replace_first_digit_group (s : Tok) (newNum : ℕ) : Tok :=
  let pre := s.takeWhile (fun c => !c.isDigit)
  let fromDigit := s.dropWhile (fun c => !c.isDigit)
  if fromDigit.isEmpty then s
  else pre ++ natDigits newNum ++ fromDigit.dropWhile (fun c => c.isDigit)

/-- The `seen` accumulation loop of `renumber_global_names` /
`renumber_optics_and_particles`: walk the names in order, extract the
first digit run, record every previously-unseen value at the end. -/
def seenFold (seen : List ℕ) (names : List Tok) : List ℕ :=
  match names with
  | [] => seen
  | nm :: rest =>
    match extract_digits_int nm with
    | some o => if o ∈ seen then seenFold seen rest else seenFold (seen ++ [o]) rest
    | none => seenFold seen rest

/-- Pair each element with its position counted from `k`. -/
def numberFrom (k : ℕ) : List ℕ → List (ℕ × ℕ)
  | [] => []
  | a :: rest => (a, k) :: numberFrom (k + 1) rest

/-- The old-to-new mapping built by `renumber_global_names`: sequential
integers starting at 1 assigned in the order the old IDs were first seen. -/
def renumber_mapping (names : List Tok) : List (ℕ × ℕ) :=
  numberFrom 1 (seenFold [] names)

/-- Modelled from the spec (claim side, for comparison with the
source-side `seenFold`): the subsequence of first occurrences of a list,
i.e. order-of-first-appearance deduplication. -/
def firstAppearances : List ℕ → List ℕ
  | [] => []
  | x :: xs => x :: firstAppearances (xs.filter (fun y => y ≠ x))
termination_by l => l.length
decreasing_by
  exact Nat.lt_succ_of_le (List.length_filter_le _ _)

/-- Association-list lookup of an old ID in a mapping, the Python
`mapping.get`. -/
def lookupMapping (m : List (ℕ × ℕ)) (v : ℕ) : Option ℕ :=
  (m.find? (fun p => p.1 = v)).map Prod.snd

/-- Renumbering of a pure integer group-ID field, mirroring
`mapping.get(v, v)` in `delete_ogs_from_star` (absent IDs pass through). -/
def mapOpticsGroup (m : List (ℕ × ℕ)) (v : ℕ) : ℕ :=
  (lookupMapping m v).getD v

/-- A histogram entry of `divide_histogram.py`: the original line paired
with its parsed value (`none` models a non-finite float). -/
abbrev HEntry := Tok × Option ℚ

/-- The Python `int()` conversion on a rational: truncation toward zero. -/
def pyint (q : ℚ) : ℤ := if 0 ≤ q then ⌊q⌋ else ⌈q⌉

/-- Append an element to the i-th inner list, the `buckets[bin_idx].append`
of `assign_bins`. -/
def appendAt {α : Type} : List (List α) → ℕ → α → List (List α)
  | [], _, _ => []
  | b :: bs, 0, e => (b ++ [e]) :: bs
  | b :: bs, Nat.succ n, e => b :: appendAt bs n e

/-- The bucket-index computation of `assign_bins` for an in-range value:
the last bucket for `val = vmax`, otherwise `int((val - vmin) / step)`
clamped into `[0, bins - 1]`. -/
def codeBinIdx (bins : ℕ) (vmin vmax : ℚ) (val : ℚ) : ℕ :=
  if val = vmax then bins - 1
  else
    let step := (vmax - vmin) / (bins : ℚ)
    let bi : ℤ := pyint ((val - vmin) / step)
    if bi < 0 then 0
    else if (bins : ℤ) ≤ bi then bins - 1
    else bi.toNat

/-- Classification of one entry by `assign_bins`: `none` when the entry is
skipped (non-finite value, or value outside `[vmin, vmax]`), otherwise the
target bucket index. -/
def classifyEnt (bins : ℕ) (vmin vmax : ℚ) (e : HEntry) : Option ℕ :=
  match e.2 with
  | none => none
  | some val =>
    if val < vmin ∨ vmax < val then none
    else some (codeBinIdx bins vmin vmax val)

/-- One iteration of the placement loop of `assign_bins`: a skipped entry
bumps the skip counter, a classified entry is appended to its bucket. -/
def binStep (bins : ℕ) (vmin vmax : ℚ) (acc : List (List HEntry) × ℕ)
    (ent : HEntry) : List (List HEntry) × ℕ :=
  match classifyEnt bins vmin vmax ent with
  | none => (acc.1, acc.2 + 1)
  | some binIdx => (appendAt acc.1 binIdx ent, acc.2)

/-- Equal-width binning, mirroring `assign_bins` of `divide_histogram.py`:
edges at `vmin + i * step`, non-finite or out-of-range entries skipped and
counted, bucket index `int((val - vmin) / step)` clamped, the value equal
to `vmax` forced into the last bucket.  `none` models the `bins < 1`
`ValueError`.  Returns (buckets, edges, skipped). -/
def assign_bins (entries : List HEntry) (bins : ℕ) (vmin vmax : ℚ) :
    Option (List (List HEntry) × List ℚ × ℕ) :=
  if bins < 1 then none
  else
    let step := (vmax - vmin) / (bins : ℚ)
    let edges := (List.range (bins + 1)).map fun i : ℕ => vmin + (i : ℚ) * step
    let final := entries.foldl (binStep bins vmin vmax) (List.replicate bins [], 0)
    some (final.1, edges, final.2)

/-- Modelled from the spec (claim side): the bucket index formula of the
claim, `floor((v - vmin) / step)` clamped to `[0, bins - 1]`, with `vmax`
forced into the last bucket and skipped entries mapped to `none`. -/
def binIndexSpec (bins : ℕ) (vmin vmax : ℚ) (v : Option ℚ) : Option ℕ :=
  match v with
  | none => none
  | some val =>
    if val < vmin ∨ vmax < val then none
    else if val = vmax then some (bins - 1)
    else some (min (⌊(val - vmin) / ((vmax - vmin) / (bins : ℚ))⌋.toNat) (bins - 1))

/-- Membership test for the inclusive `[vmin, vmax]` filter of
`assign_bins_same_size` (a non-finite value never passes). -/
def inRangeB (vmin vmax : ℚ) (e : HEntry) : Bool :=
  match e.2 with
  | some v => decide (vmin ≤ v ∧ v ≤ vmax)
  | none => false

/-- Value of an entry (the sort key `x[1]`); only applied to in-range
entries, whose value is always finite. -/
def entryVal (e : HEntry) : ℚ := e.2.getD 0

/-- Sort relation of the `sorted(key=...)` call: comparison on values. -/
def valLe (a b : HEntry) : Prop := entryVal a ≤ entryVal b

instance : DecidableRel valLe :=
  fun a b => inferInstanceAs (Decidable (entryVal a ≤ entryVal b))

instance : IsTotal HEntry valLe := ⟨fun a b => le_total (entryVal a) (entryVal b)⟩

instance : IsTrans HEntry valLe := ⟨fun _ _ _ h1 h2 => le_trans h1 h2⟩

/-- The Python `round` on a rational: round half to even. -/
def pyround (q : ℚ) : ℤ :=
  if q - ⌊q⌋ < 1 / 2 then ⌊q⌋
  else if (1 : ℚ) / 2 < q - ⌊q⌋ then ⌊q⌋ + 1
  else if ⌊q⌋ % 2 = 0 then ⌊q⌋ else ⌊q⌋ + 1

/-- The Python slice `l[s:e]` for 0 ≤ s ≤ e. -/
def pySlice {α : Type} (l : List α) (s e : ℕ) : List α := (l.take e).drop s

/-- Cut indices of `assign_bins_same_size`: `int(round(i * total / bins))`
for `i` in `0..bins`. -/
def sameSizeCuts (bins total : ℕ) : List ℕ :=
  (List.range (bins + 1)).map fun i =>
    (pyround (((i * total : ℕ) : ℚ) / (bins : ℚ))).toNat

/-- Edge values of `assign_bins_same_size`: the sorted value at each cut
index, or the last value when the cut index equals the total. -/
def sameSizeEdges (sorted : List HEntry) (cuts : List ℕ) : List ℚ :=
  cuts.map fun i =>
    if i < sorted.length then entryVal (sorted.getD i ([], none))
    else entryVal (sorted.getLastD ([], none))

/-- Bucket slices of `assign_bins_same_size`: `entries_sorted[start:end]`
for consecutive cut indices. -/
def sameSizeBuckets (sorted : List HEntry) (cuts : List ℕ) (bins : ℕ) :
    List (List HEntry) :=
  (List.range bins).map fun i => pySlice sorted (cuts.getD i 0) (cuts.getD (i + 1) 0)

/-- Equal-count binning, mirroring `assign_bins_same_size`: filter to the
inclusive range, stable-sort ascending by value (Python sorted, modelled
by insertion sort which is stable for the `le` comparison), cut at indices
`int(round(i * total / bins))` and slice.  `none` models the two
`ValueError` branches.  Returns (buckets, edges, skipped). -/
def assign_bins_same_size (entries : List HEntry) (bins : ℕ) (vmin vmax : ℚ) :
    Option (List (List HEntry) × List ℚ × ℕ) :=
  if bins < 1 then none
  else
    let in_range := entries.filter (inRangeB vmin vmax)
    let skipped := entries.length - in_range.length
    if in_range.isEmpty then none
    else
      let sorted := in_range.insertionSort valLe
      some (sameSizeBuckets sorted (sameSizeCuts bins sorted.length) bins,
            sameSizeEdges sorted (sameSizeCuts bins sorted.length),
            skipped)

/-- A parsed LST data row: zero-based index, stack path, and the
`key=value` extras with their parsed numeric value (`none` when the text
after the equals sign is not a number). -/
structure LstRecord where
  idx : ℕ
  path : Tok
  extras : List (Tok × Option ℚ)
deriving DecidableEq

/-- First extra field with the given name, mirroring the token scan of
`read_lst` (first matching `param=` token wins). -/
def findParamVal (extras : List (Tok × Option ℚ)) (param : Tok) : Option (Option ℚ) :=
  (extras.find? (fun p => p.1 = param)).map Prod.snd

/-- Keep decision of `read_lst` in `lst2star.py` for one record: with no
column and no thresholds everything is kept; otherwise the named field is
looked up (the literal name None when the column is absent, as the f-string
needle builds), an unparseable or missing value drops the row, and the
value (absolute value if requested) must pass the strict threshold
comparisons. -/
def keepLst (param : Option Tok) (gt lt : Option ℚ) (useAbs : Bool) (r : LstRecord) : Bool :=
  if param.isNone && gt.isNone && lt.isNone then true
  else
    let pname := param.getD "None".toList
    match findParamVal r.extras pname with
    | none => false
    | some none => false
    | some (some v) =>
      let w := if useAbs then |v| else v
      (match gt with | none => true | some g => decide (g < w)) &&
        (match lt with | none => true | some l => decide (w < l))

/-- The record filtering performed by `read_lst`: the kept records in
input order. -/
def read_lst_filter (entries : List LstRecord) (param : Option Tok)
    (gt lt : Option ℚ) (useAbs : Bool) : List LstRecord :=
  entries.filter (keepLst param gt lt useAbs)

/-- The image tags returned by `read_lst`: one tag per kept record. -/
def read_lst_tags (entries : List LstRecord) (param : Option Tok)
    (gt lt : Option ℚ) (useAbs : Bool) : List Tok :=
  (read_lst_filter entries param gt lt useAbs).map fun r => mkImageTag r.idx r.path

/-- A STAR block in the StarFile3 representation used by `filter_star`:
an ordered mapping from column name to the column value list. -/
abbrev ColBlock := List (Tok × List Tok)

/-- Key-membership test `rlnImageName in block`. -/
def hasImageName (b : ColBlock) : Bool :=
  b.any fun c => c.1 = "rlnImageName".toList

/-- The `rlnImageName` column of a block (empty when absent). -/
def imageNames (b : ColBlock) : List Tok :=
  ((b.find? fun c => c.1 = "rlnImageName".toList).map Prod.snd).getD []

/-- Row mask `np.isin(image_names, keep_images)`. -/
def keepMask (names : List Tok) (keep : List Tok) : List Bool :=
  names.map fun nm => decide (nm ∈ keep)

/-- Column selection `arr[kept_indices]`: keep the positions whose mask
entry is true, in order. -/
def filterColumn (mask : List Bool) (vals : List Tok) : List Tok :=
  ((vals.zip mask).filter fun p => p.2).map Prod.fst

/-- Per-block behaviour of `filter_star` in `lst2star.py`: a block without
`rlnImageName` is copied as-is; a block with it has every column filtered
by the keep mask, and is dropped entirely when no row matches. -/
def filterBlock (keep : List Tok) (b : ColBlock) : Option ColBlock :=
  if hasImageName b then
    let mask := keepMask (imageNames b) keep
    if mask.count true = 0 then none
    else some (b.map fun c => (c.1, filterColumn mask c.2))
  else some b

/-- Whole-document behaviour of `filter_star`: the surviving blocks in
order, together with the total number of kept particle rows
(`kept_num`). -/
def filter_star (star : List (Tok × ColBlock)) (keep : List Tok) :
    List (Tok × ColBlock) × ℕ :=
  (star.filterMap fun nb => (filterBlock keep nb.2).map fun b2 => (nb.1, b2),
   (star.map fun nb =>
     if hasImageName nb.2 then (keepMask (imageNames nb.2) keep).count true else 0).sum)

/-- Outcome of one `lst2star.py` run: the process exit code and the
content written to the output STAR file (`none` when the file was never
opened). -/
structure RunOutcome where
  exitCode : ℕ
  written : Option (List (Tok × ColBlock))
deriving DecidableEq

/-- The tail of `main` in `lst2star.py` after the merged LST has been
parsed: zero kept images exits with status 1 before any output exists;
otherwise `filter_star` writes the output file, and a zero particle count
is only detected afterwards, again exiting with status 1. -/
def lst2star_main (entries : List LstRecord) (param : Option Tok)
    (gt lt : Option ℚ) (useAbs : Bool) (star : List (Tok × ColBlock)) : RunOutcome :=
  let kept_images := read_lst_tags entries param gt lt useAbs
  if kept_images.isEmpty then ⟨1, none⟩
  else
    let fr := filter_star star kept_images
    if fr.2 = 0 then ⟨1, some fr.1⟩ else ⟨0, some fr.1⟩

/-- Natural-number parse of a token (digit run), used for the leading LST
index column. -/
def parseNatTok (t : Tok) : Option ℕ :=
  if !t.isEmpty && t.all Char.isDigit then some (digitsVal t) else none

/-- Integer parse of a token, the Python `int(...)` on a text token
(optional minus sign followed by digits). -/
def parseIntTok (t : Tok) : Option ℤ :=
  match t with
  | '-' :: rest => (parseNatTok rest).map fun n => -(n : ℤ)
  | _ => (parseNatTok t).map fun n => (n : ℤ)

/-- Strip of an LST file to its usable data lines: non-blank and not a
comment, as the list comprehensions of `merge_lst` do. -/
def cleanLines (ls : List Line) : List Line :=
  ls.filter fun l => !l.isEmpty && !isCommentLine l

/-- Resolution of one lst1 row by `merge_lst`: the row must have at least
two tokens, an integer first token, a known lst2 file, and an in-range
index; any failure skips the row (with a warning) and the merged line is
the referenced lst2 line with the extra lst1 tokens appended. -/
def resolveRow (files : List (Tok × List Line)) (parts : Line) : Option Line :=
  match parts with
  | idxTok :: fileTok :: rest =>
    match parseIntTok idxTok with
    | none => none
    | some idx =>
      match files.find? (fun f => f.1 = fileTok) with
      | none => none
      | some f =>
        let lines2 := cleanLines f.2
        if 0 ≤ idx ∧ idx < (lines2.length : ℤ) then
          some (lines2.getD idx.toNat [] ++ rest)
        else none
  | _ => none

/-- The writing loop of `merge_lst`: each usable lst1 row is resolved and
written, unresolvable rows are skipped. -/
def mergeRows (files : List (Tok × List Line)) : List Line → List Line
  | [] => []
  | parts :: rest =>
    match resolveRow files parts with
    | some m => m :: mergeRows files rest
    | none => mergeRows files rest

/-- `merge_lst` of `lst2star.py`: aborts (`sys.exit`) only when lst1 has
no usable line at all, otherwise writes the resolvable rows. -/
def merge_lst (lines1 : List Line) (files : List (Tok × List Line)) : Option (List Line) :=
  let clean := cleanLines lines1
  if clean.isEmpty then none
  else some (mergeRows files clean)

/-- Concrete histogram entries for the equal-width binning witness:
values 10, 2 and -1/2 with bins 5 over [0, 10]. -/
def exHist : List HEntry :=
  [("a".toList, some 10), ("b".toList, some 2), ("c".toList, some (-(1 : ℚ) / 2))]

/-- Ten histogram entries with distinct values 1..10 for the equal-count
binning witness. -/
def exTen : List HEntry :=
  [(['a'], some 1), (['b'], some 2), (['c'], some 3), (['d'], some 4),
   (['e'], some 5), (['f'], some 6), (['g'], some 7), (['h'], some 8),
   (['i'], some 9), (['j'], some 10)]

/-- Concrete LST record used in witnesses: zero-based index 41 in
stack.mrcs. -/
def exRecord : LstRecord := ⟨41, "stack.mrcs".toList, []⟩

/-- Concrete STAR document (StarFile3 representation) used in witnesses:
an optics block without rlnImageName and a particles block with it. -/
def exStar : List (Tok × ColBlock) :=
  [("optics".toList, [("rlnVoltage".toList, ["300".toList])]),
   ("particles".toList,
     [("rlnImageName".toList, ["000001@a.mrcs".toList]),
      ("rlnScore".toList, ["0.5".toList])])]

/-- Concrete lst2 file content: one comment line, one data line. -/
def exLst2 : List Line := [["#LST".toList], ["7".toList, "a.mrcs".toList]]

/-- Concrete lst1 content: two usable rows, the second referencing row 5
of a one-row lst2 (a retained-row count mismatch). -/
def exLst1 : List Line :=
  [["0".toList, "in.lst".toList, "score=1".toList],
   ["5".toList, "in.lst".toList, "score=2".toList]]

/-- A small concrete STAR text (token lines) used to instantiate the
round-trip law: an optics table and a particles table. -/
def exStarText : List Line :=
  [["#".toList, "version".toList, "30001".toList], [],
   ["data_optics".toList], [],
   ["loop_".toList],
   ["_rlnOpticsGroup".toList, "#1".toList],
   ["_rlnVoltage".toList, "#2".toList],
   ["1".toList, "300".toList], [],
   ["data_particles".toList], [],
   ["loop_".toList],
   ["_rlnImageName".toList, "#1".toList],
   ["000001@a.mrcs".toList],
   ["000002@a.mrcs".toList], []]

/-- A row that a parse can produce: non-blank, and not classified as a
header, `loop_` or `data_` line. -/
def goodRow (l : Line) : Prop :=
  l ≠ [] ∧ isHeaderLine l = false ∧ isLoopLine l = false ∧ isDataLine l = false

/-- Well-formedness of a block: table rows must be parse-producible. -/
def wfBlock : Block → Prop
  | Block.scalar _ => True
  | Block.table _ rows => ∀ r ∈ rows, goodRow r

/-- Well-formedness of a document. -/
def wfDoc (d : StarDocument) : Prop := ∀ nb ∈ d, wfBlock nb.2

/-! ### Generic list helpers -/

theorem takeWhile_append_all {α : Type} {p : α → Bool} {xs ys : List α}
    (h : ∀ x ∈ xs, p x = true) :
    (xs ++ ys).takeWhile p = xs ++ ys.takeWhile p := by
  induction xs with
  | nil => simp
  | cons a xs ih =>
    have ha : p a = true := h a (List.mem_cons_self a xs)
    simp [List.takeWhile_cons, ha]
    exact ih fun x hx => h x (List.mem_cons_of_mem a hx)

theorem dropWhile_append_all {α : Type} {p : α → Bool} {xs ys : List α}
    (h : ∀ x ∈ xs, p x = true) :
    (xs ++ ys).dropWhile p = ys.dropWhile p := by
  induction xs with
  | nil => simp
  | cons a xs ih =>
    have ha : p a = true := h a (List.mem_cons_self a xs)
    simp [List.dropWhile_cons, ha]
    exact ih fun x hx => h x (List.mem_cons_of_mem a hx)

theorem isPrefixOf_cons_false {a b : Char} (h : (a == b) = false) (as bs : List Char) :
    (a :: as).isPrefixOf (b :: bs) = false := by
  simp only [List.isPrefixOf, Bool.and_eq_false_iff]
  exact Or.inl h

theorem isPrefixOf_self_append (xs ys : List Char) : xs.isPrefixOf (xs ++ ys) = true := by
  induction xs with
  | nil => simp [List.isPrefixOf]
  | cons a as ih => simp [List.isPrefixOf, ih]

/-! ### Classification of serialized lines -/

theorem isDataLine_head (c : Char) (h : ('d' == Char.toLower c) = false)
    (k : Tok) (r : List Tok) : isDataLine ((c :: k) :: r) = false := by
  simp only [isDataLine, lowerTok, List.map_cons]
  rw [show "data_".toList = 'd' :: "ata_".toList from rfl]
  exact isPrefixOf_cons_false h _ _

theorem isLoopLine_head (c : Char) (h : ('l' == Char.toLower c) = false)
    (k : Tok) (r : List Tok) : isLoopLine ((c :: k) :: r) = false := by
  simp only [isLoopLine, lowerTok, List.map_cons]
  rw [show "loop_".toList = 'l' :: "oop_".toList from rfl]
  exact isPrefixOf_cons_false h _ _

theorem isDataLine_underscore (k : Tok) (r : List Tok) :
    isDataLine (('_' :: k) :: r) = false :=
  isDataLine_head '_' (by decide) k r

theorem isLoopLine_underscore (k : Tok) (r : List Tok) :
    isLoopLine (('_' :: k) :: r) = false :=
  isLoopLine_head '_' (by decide) k r

theorem isDataLine_loopTok : isDataLine (["loop_".toList] : Line) = false := by decide

theorem isLoopLine_loopTok : isLoopLine (["loop_".toList] : Line) = true := by decide

theorem isHeaderLine_loopTok : isHeaderLine (["loop_".toList] : Line) = false := by decide

theorem isDataLine_dataTok (n : Tok) :
    isDataLine [('d' :: 'a' :: 't' :: 'a' :: '_' :: n)] = true := by
  show isDataLine ["data_".toList ++ n] = true
  simp only [isDataLine, lowerTok, List.map_append]
  rw [show List.map Char.toLower "data_".toList = "data_".toList from by decide]
  exact isPrefixOf_self_append _ _

theorem blockName_dataTok (n : Tok) :
    blockName [('d' :: 'a' :: 't' :: 'a' :: '_' :: n)] = n := by
  simp [blockName]

theorem isHeaderLine_underscore (k : Tok) (r : List Tok) :
    isHeaderLine (('_' :: k) :: r) = true := by
  simp [isHeaderLine]

/-! ### STAR codec round-trip (C1) -/

theorem splitBlocks_body_not_data (ls : List Line) :
    ∀ n body, (n, body) ∈ splitBlocks ls → ∀ l ∈ body, isDataLine l = false := by
  induction ls using splitBlocks.induct with
  | case1 => intro n body h; simp [splitBlocks] at h
  | case2 l rest hd ih =>
    intro n body h l2 hl2
    rw [splitBlocks, if_pos hd] at h
    rcases List.mem_cons.mp h with heq | hmem
    · have hb : body = rest.takeWhile (fun x => !isDataLine x) := (Prod.mk.injEq _ _ _ _ ▸ heq).2
      have := List.mem_takeWhile_imp (hb ▸ hl2)
      simpa using this
    · exact ih n body hmem l2 hl2
  | case3 l rest hd ih =>
    intro n body h
    rw [splitBlocks, if_neg hd] at h
    exact ih n body h

theorem loopSegments_not_loop (ls : List Line) :
    ∀ seg ∈ loopSegments ls, ∀ l ∈ seg, isLoopLine l = false := by
  induction ls using loopSegments.induct with
  | case1 => intro seg h; simp [loopSegments] at h
  | case2 l rest hd ih =>
    intro seg h l2 hl2
    rw [loopSegments, if_pos hd] at h
    rcases List.mem_cons.mp h with heq | hmem
    · have := List.mem_takeWhile_imp (heq ▸ hl2)
      simpa using this
    · exact ih seg hmem l2 hl2
  | case3 l rest hd ih =>
    intro seg h
    rw [loopSegments, if_neg hd] at h
    exact ih seg h

theorem loopSegments_subset (ls : List Line) :
    ∀ seg ∈ loopSegments ls, ∀ l ∈ seg, l ∈ ls := by
  induction ls using loopSegments.induct with
  | case1 => intro seg h; simp [loopSegments] at h
  | case2 l rest hd ih =>
    intro seg h l2 hl2
    rw [loopSegments, if_pos hd] at h
    rcases List.mem_cons.mp h with heq | hmem
    · exact List.mem_cons_of_mem _ ((List.takeWhile_sublist _).mem (heq ▸ hl2))
    · exact List.mem_cons_of_mem _ ((List.dropWhile_sublist _).mem (ih seg hmem l2 hl2))
  | case3 l rest hd ih =>
    intro seg h
    exact fun l2 hl2 => List.mem_cons_of_mem _ (by
      rw [loopSegments, if_neg hd] at h
      exact ih seg h l2 hl2)

theorem loopSegments_nil_of (ls : List Line) (h : ∀ l ∈ ls, isLoopLine l = false) :
    loopSegments ls = [] := by
  induction ls with
  | nil => simp [loopSegments]
  | cons l rest ih =>
    rw [loopSegments, if_neg (by simp [h l (List.mem_cons_self l rest)])]
    exact ih fun x hx => h x (List.mem_cons_of_mem l hx)

/-- No line of a serialized block body is a `data_` line (given wf rows). -/
theorem bodyLines_not_data (b : Block) (hb : wfBlock b) :
    ∀ l ∈ bodyLines b, isDataLine l = false := by
  cases b with
  | scalar entries =>
    intro l hl
    simp only [bodyLines, List.mem_cons, List.mem_append, List.mem_map,
      List.mem_singleton] at hl
    rcases hl with h1 | ⟨e, _, rfl⟩ | h2 | h2
    · subst h1; rfl
    · exact isDataLine_underscore _ _
    · subst h2; rfl
    · cases h2
  | table cols rows =>
    intro l hl
    simp only [bodyLines, List.mem_cons, List.mem_append, List.mem_singleton] at hl
    rcases hl with h1 | h2 | ⟨hh | hr⟩ | h3 | h3
    · subst h1; rfl
    · subst h2; exact isDataLine_loopTok
    · simp only [headerLines, List.mem_map] at hh
      obtain ⟨p, _, rfl⟩ := hh
      exact isDataLine_underscore _ _
    · exact (hb l hr).2.2.2
    · subst h3; rfl
    · cases h3

theorem serialize_cons (nb : Tok × Block) (d : StarDocument) :
    serialize (nb :: d) =
      ([('d' :: 'a' :: 't' :: 'a' :: '_' :: nb.1)] :: bodyLines nb.2) ++ serialize d := by
  simp [serialize, serializeBlock]

/-- The head line of a non-empty serialized document is a `data_` line, so
takeWhile of the negated predicate is empty and dropWhile is everything. -/
theorem takeWhile_not_data_serialize (d : StarDocument) :
    (serialize d).takeWhile (fun x => !isDataLine x) = [] := by
  cases d with
  | nil => rfl
  | cons nb d =>
    rw [serialize_cons]
    simp [List.takeWhile_cons, isDataLine_dataTok]

theorem dropWhile_not_data_serialize (d : StarDocument) :
    (serialize d).dropWhile (fun x => !isDataLine x) = serialize d := by
  cases d with
  | nil => rfl
  | cons nb d =>
    rw [serialize_cons]
    simp [List.dropWhile_cons, isDataLine_dataTok]

theorem splitBlocks_serialize (d : StarDocument) (hd : wfDoc d) :
    splitBlocks (serialize d) = d.map fun nb => (nb.1, bodyLines nb.2) := by
  induction d with
  | nil => simp [serialize, splitBlocks]
  | cons nb d ih =>
    rw [serialize_cons, List.cons_append, splitBlocks,
      if_pos (isDataLine_dataTok nb.1)]
    have hbody : ∀ l ∈ bodyLines nb.2, (fun x => !isDataLine x) l = true := by
      intro l hl
      simp [bodyLines_not_data nb.2 (hd nb (List.mem_cons_self nb d)) l hl]
    rw [takeWhile_append_all hbody, dropWhile_append_all hbody,
      takeWhile_not_data_serialize, dropWhile_not_data_serialize,
      blockName_dataTok, List.append_nil]
    have hd2 : wfDoc d := fun x hx => hd x (List.mem_cons_of_mem nb hx)
    rw [ih hd2]
    rfl

theorem parseScalarEntries_serialized (entries : List (Tok × List Tok)) :
    parseScalarEntries ([] :: (entries.map (fun e => ('_' :: e.1) :: e.2) ++ [[]]))
      = entries := by
  induction entries with
  | nil => rfl
  | cons e es ih =>
    simp only [List.map_cons, List.cons_append, parseScalarEntries,
      List.filterMap_cons] at ih ⊢
    simp only [isCommentLine, stripKey]
    simpa using ih

theorem bodyLines_table_not_loop (cols : List Tok) (rows : List Line)
    (hb : wfBlock (Block.table cols rows)) :
    ∀ l ∈ headerLines cols ++ rows ++ [[]], isLoopLine l = false := by
  intro l hl
  simp only [List.mem_append, List.mem_singleton] at hl
  rcases hl with ⟨hh | hr⟩ | h3
  · simp only [headerLines, List.mem_map] at hh
    obtain ⟨p, _, rfl⟩ := hh
    exact isLoopLine_underscore _ _
  · exact (hb l hr).2.2.1
  · subst h3; rfl

theorem parseLoopSegment_serialized (cols : List Tok) (rows : List Line)
    (hb : wfBlock (Block.table cols rows)) :
    parseLoopSegment (headerLines cols ++ rows ++ [[]]) = Block.table cols rows := by
  have hheads : ∀ l ∈ headerLines cols, isHeaderLine l = true := by
    intro l hl
    simp only [headerLines, List.mem_map] at hl
    obtain ⟨p, _, rfl⟩ := hl
    exact isHeaderLine_underscore _ _
  have htail : (rows ++ [[]]).takeWhile (fun l => isHeaderLine l) = [] := by
    cases rows with
    | nil => rfl
    | cons r rs =>
      simp [List.takeWhile_cons, (hb r (List.mem_cons_self r rs)).2.1]
  have hdtail : (rows ++ [[]]).dropWhile (fun l => isHeaderLine l) = rows ++ [[]] := by
    cases rows with
    | nil => rfl
    | cons r rs =>
      simp [List.dropWhile_cons, (hb r (List.mem_cons_self r rs)).2.1]
  have hregion : (rows ++ [[]]).takeWhile (fun l => !isHeaderLine l) = rows ++ [[]] := by
    rw [List.takeWhile_eq_self_iff.mpr]
    intro x hx
    simp only [List.mem_append, List.mem_singleton] at hx
    rcases hx with hr | h3
    · simp [(hb x hr).2.1]
    · subst h3; rfl
  simp only [parseLoopSegment]
  rw [List.append_assoc, takeWhile_append_all hheads, htail,
    dropWhile_append_all hheads, hdtail, List.append_nil, hregion]
  congr 1
  · simp only [headerLines, List.map_map]
    calc (cols.enum.map ((fun l => stripKey (List.headD l [])) ∘
            fun p => ['_' :: p.2, '#' :: natDigits (p.1 + 1)]))
        = cols.enum.map (fun p => p.2) := by
          apply List.map_congr_left
          intro p _
          rfl
      _ = cols := by
          simpa using List.enum_map_snd cols
  · rw [List.filter_append]
    have h1 : rows.filter (fun l => !l.isEmpty) = rows := by
      rw [List.filter_eq_self]
      intro a ha
      simp [List.isEmpty_iff, (hb a ha).1]
    have h2 : ([([] : Line)] : List Line).filter (fun l => !l.isEmpty) = [] := rfl
    rw [h1, h2, List.append_nil]

theorem parseBlockBody_scalar (entries : List (Tok × List Tok)) :
    parseBlockBody (bodyLines (Block.scalar entries)) = [Block.scalar entries] := by
  have hnoloop : ∀ l ∈ bodyLines (Block.scalar entries), isLoopLine l = false := by
    intro l hl
    simp only [bodyLines, List.mem_cons, List.mem_append, List.mem_map,
      List.mem_singleton] at hl
    rcases hl with h1 | ⟨e, _, rfl⟩ | h2 | h2
    · subst h1; rfl
    · exact isLoopLine_underscore _ _
    · subst h2; rfl
    · cases h2
  simp only [parseBlockBody]
  rw [loopSegments_nil_of _ hnoloop,
    List.takeWhile_eq_self_iff.mpr (by intro x hx; simp [hnoloop x hx])]
  rw [show bodyLines (Block.scalar entries)
      = [] :: (entries.map (fun e => ('_' :: e.1) :: e.2) ++ [[]]) from rfl,
    parseScalarEntries_serialized]
  simp

theorem parseBlockBody_table (cols : List Tok) (rows : List Line)
    (hb : wfBlock (Block.table cols rows)) :
    parseBlockBody (bodyLines (Block.table cols rows)) = [Block.table cols rows] := by
  have hseg : ∀ l ∈ headerLines cols ++ rows ++ [[]], isLoopLine l = false :=
    bodyLines_table_not_loop cols rows hb
  simp only [parseBlockBody]
  rw [show bodyLines (Block.table cols rows)
      = [] :: ["loop_".toList] :: (headerLines cols ++ rows ++ [[]]) from rfl]
  have hsegs : loopSegments ([] :: ["loop_".toList] :: (headerLines cols ++ rows ++ [[]]))
      = [headerLines cols ++ rows ++ [[]]] := by
    rw [loopSegments, if_neg (by decide)]
    rw [loopSegments, if_pos (by exact isLoopLine_loopTok)]
    rw [List.takeWhile_eq_self_iff.mpr (by intro x hx; simp [hseg x hx]),
      List.dropWhile_eq_nil_iff.mpr (by intro x hx; simp [hseg x hx])]
    simp [loopSegments]
  rw [hsegs]
  have hpre : ([] :: ["loop_".toList] :: (headerLines cols ++ rows ++ [[]])).takeWhile
      (fun l => !isLoopLine l) = [[]] := by
    rw [List.takeWhile_cons, if_pos (by decide)]
    rw [List.takeWhile_cons, if_neg (by decide)]
  rw [hpre]
  rw [show parseScalarEntries [[]] = [] from rfl]
  have hps := parseLoopSegment_serialized cols rows hb
  rw [List.append_assoc] at hps
  simp [hps]

theorem wf_parseLoopSegment (ls : List Line) (n : Tok) (body : List Line)
    (hsb : (n, body) ∈ splitBlocks ls) (seg : List Line)
    (hsegmem : seg ∈ loopSegments body) :
    wfBlock (parseLoopSegment seg) := by
  intro r hr
  have hr1 := (List.mem_filter.mp hr).1
  have hr2 := (List.mem_filter.mp hr).2
  have hnotheader : isHeaderLine r = false := by
    have := List.mem_takeWhile_imp hr1
    simpa using this
  have hrseg : r ∈ seg :=
    (List.dropWhile_sublist _).mem ((List.takeWhile_sublist _).mem hr1)
  refine ⟨?_, hnotheader, ?_, ?_⟩
  · simp only [Bool.not_eq_eq_eq_not, Bool.not_true] at hr2
    exact fun hnil => by simp [hnil] at hr2
  · exact loopSegments_not_loop body seg hsegmem r hrseg
  · exact splitBlocks_body_not_data ls n body hsb r
      (loopSegments_subset body seg hsegmem r hrseg)

theorem wf_parse (ls : List Line) : wfDoc (parse ls) := by
  intro nb hmem
  simp only [parse, List.mem_flatMap] at hmem
  obtain ⟨⟨n, body⟩, hsb, hb⟩ := hmem
  simp only [List.mem_map] at hb
  obtain ⟨b, hbmem, rfl⟩ := hb
  show wfBlock b
  simp only [parseBlockBody] at hbmem
  by_cases hsegs : (loopSegments body).isEmpty
  · rw [if_pos hsegs] at hbmem
    simp only [List.mem_singleton] at hbmem
    subst hbmem
    trivial
  · rw [if_neg hsegs] at hbmem
    rcases List.mem_append.mp hbmem with hl | hr
    · split at hl
      · cases hl
      · simp only [List.mem_singleton] at hl
        subst hl
        trivial
    · obtain ⟨seg, hsegmem, rfl⟩ := List.mem_map.mp hr
      exact wf_parseLoopSegment ls n body hsb seg hsegmem

theorem flatMap_parseBlockBody :
    ∀ d : StarDocument, wfDoc d →
      ((d.map fun nb => (nb.1, bodyLines nb.2)).flatMap
        fun nb => (parseBlockBody nb.2).map fun b => (nb.1, b)) = d := by
  intro d
  induction d with
  | nil => intro _; rfl
  | cons nb d ih =>
    intro hd
    rw [List.map_cons, List.flatMap_cons]
    have h1 : parseBlockBody (bodyLines nb.2) = [nb.2] := by
      rcases hblock : nb.2 with e | ⟨c, r⟩
      · exact parseBlockBody_scalar e
      · exact parseBlockBody_table c r (hblock ▸ hd nb (List.mem_cons_self nb d))
    rw [h1, ih (fun x hx => hd x (List.mem_cons_of_mem nb hx))]
    rfl

theorem parse_serialize_of_wf (d : StarDocument) (hd : wfDoc d) :
    parse (serialize d) = d := by
  rw [parse, splitBlocks_serialize d hd, flatMap_parseBlockBody d hd]

/-! ### Numeric rendering, renumbering, filtering and run lemmas -/

theorem charVal_digitChar (k : ℕ) (h : k < 10) : charVal (Nat.digitChar k) = k := by
  interval_cases k <;> rfl

theorem digitChar_isDigit (k : ℕ) (h : k < 10) : (Nat.digitChar k).isDigit = true := by
  interval_cases k <;> rfl

theorem digitsVal_append_singleton (ds : List Char) (c : Char) :
    digitsVal (ds ++ [c]) = digitsVal ds * 10 + charVal c := by
  simp [digitsVal, List.foldl_append]

theorem digitsVal_natDigitsGo (fuel n : ℕ) (h : n ≤ fuel) :
    digitsVal (natDigitsGo fuel n) = n := by
  induction fuel generalizing n with
  | zero =>
    have : n = 0 := by omega
    subst this
    rfl
  | succ fuel ih =>
    rw [natDigitsGo]
    by_cases h10 : n < 10
    · rw [if_pos h10]
      simp [digitsVal, charVal_digitChar n h10]
    · rw [if_neg h10, digitsVal_append_singleton,
        ih (n / 10) (by omega), charVal_digitChar _ (by omega)]
      omega

theorem digitsVal_natDigits (n : ℕ) : digitsVal (natDigits n) = n :=
  digitsVal_natDigitsGo (n + 1) n (by omega)

theorem natDigitsGo_isDigit (fuel n : ℕ) :
    ∀ c ∈ natDigitsGo fuel n, c.isDigit = true := by
  induction fuel generalizing n with
  | zero => intro c hc; cases hc
  | succ fuel ih =>
    intro c hc
    rw [natDigitsGo] at hc
    by_cases h10 : n < 10
    · rw [if_pos h10] at hc
      simp only [List.mem_singleton] at hc
      subst hc
      exact digitChar_isDigit n h10
    · rw [if_neg h10] at hc
      rcases List.mem_append.mp hc with h1 | h2
      · exact ih (n / 10) c h1
      · simp only [List.mem_singleton] at h2
        subst h2
        exact digitChar_isDigit _ (by omega)

theorem natDigits_isDigit (n : ℕ) : ∀ c ∈ natDigits n, c.isDigit = true :=
  natDigitsGo_isDigit (n + 1) n

theorem zfill_isDigit (w : ℕ) (n : ℕ) :
    ∀ c ∈ zfill w (natDigits n), c.isDigit = true := by
  intro c hc
  rcases List.mem_append.mp hc with h1 | h2
  · rw [List.eq_of_mem_replicate h1]
    rfl
  · exact natDigits_isDigit n c h2

theorem zfill_length (w : ℕ) (t : Tok) : w ≤ (zfill w t).length := by
  simp [zfill]
  omega

/-- C5: ImageTag construction.  For every zero-based index i and path p the
derived join key is the decimal rendering of i + 1 (digitsVal recovers the
value, every character is a digit) zero-padded to width at least 6,
followed by an at sign and the path; in particular index 41 with path
stack.mrcs yields 000042@stack.mrcs. -/
theorem c5_image_tag (i : ℕ) (p : Tok) :
    mkImageTag i p = zfill 6 (natDigits (i + 1)) ++ '@' :: p
    ∧ digitsVal (natDigits (i + 1)) = i + 1
    ∧ (∀ c ∈ zfill 6 (natDigits (i + 1)), c.isDigit = true)
    ∧ 6 ≤ (zfill 6 (natDigits (i + 1))).length
    ∧ mkImageTag 41 "stack.mrcs".toList = "000042@stack.mrcs".toList :=
  ⟨rfl, digitsVal_natDigits (i + 1), zfill_isDigit 6 (i + 1),
   zfill_length 6 (natDigits (i + 1)), by decide⟩

theorem firstAppearances_subset (l : List ℕ) : ∀ a ∈ firstAppearances l, a ∈ l := by
  induction l using firstAppearances.induct with
  | case1 => intro a ha; rw [firstAppearances] at ha; cases ha
  | case2 x xs ih =>
    intro a ha
    rw [firstAppearances] at ha
    rcases List.mem_cons.mp ha with rfl | hmem
    · exact List.mem_cons_self _ _
    · exact List.mem_cons_of_mem _ (List.mem_of_mem_filter (ih a hmem))

theorem firstAppearances_nodup (l : List ℕ) : (firstAppearances l).Nodup := by
  induction l using firstAppearances.induct with
  | case1 => rw [firstAppearances]; exact List.nodup_nil
  | case2 x xs ih =>
    rw [firstAppearances]
    refine List.Nodup.cons ?_ ih
    intro hx
    have := firstAppearances_subset _ x hx
    simp at this

theorem mem_firstAppearances (l : List ℕ) (a : ℕ) :
    a ∈ firstAppearances l ↔ a ∈ l := by
  constructor
  · exact firstAppearances_subset l a
  · intro ha
    induction l using firstAppearances.induct with
    | case1 => cases ha
    | case2 x xs ih =>
      rw [firstAppearances]
      rcases List.mem_cons.mp ha with rfl | hmem
      · exact List.mem_cons_self _ _
      · by_cases hax : a = x
        · subst hax; exact List.mem_cons_self _ _
        · exact List.mem_cons_of_mem _ (ih (List.mem_filter.mpr ⟨hmem, by simp [hax]⟩))

theorem seenFold_eq (names : List Tok) :
    ∀ seen : List ℕ,
      seenFold seen names
        = seen ++ firstAppearances
            ((names.filterMap extract_digits_int).filter fun x => x ∉ seen) := by
  induction names with
  | nil => intro seen; simp [seenFold, firstAppearances]
  | cons nm rest ih =>
    intro seen
    rw [seenFold]
    rcases hex : extract_digits_int nm with _ | o
    · simp only [List.filterMap_cons, hex]
      exact ih seen
    · simp only [List.filterMap_cons, hex]
      by_cases ho : o ∈ seen
      · rw [if_pos ho, List.filter_cons_of_neg (by simp [ho])]
        exact ih seen
      · rw [if_neg ho, List.filter_cons_of_pos (by simp [ho]), firstAppearances]
        rw [ih (seen ++ [o])]
        have hflt : (List.filterMap extract_digits_int rest).filter
              (fun x => decide (x ∉ seen ++ [o]))
            = ((List.filterMap extract_digits_int rest).filter
                (fun x => decide (x ∉ seen))).filter (fun y => y ≠ o) := by
          rw [List.filter_filter]
          apply List.filter_congr
          intro a _
          by_cases h1 : a ∈ seen <;> by_cases h2 : a = o <;> simp [h1, h2]
        rw [hflt]
        simp

theorem numberFrom_map_fst (l : List ℕ) : ∀ k, (numberFrom k l).map Prod.fst = l := by
  induction l with
  | nil => intro k; rfl
  | cons a rest ih => intro k; simp [numberFrom, ih]

theorem numberFrom_map_snd (l : List ℕ) :
    ∀ k, (numberFrom k l).map Prod.snd = List.range' k l.length := by
  induction l with
  | nil => intro k; rfl
  | cons a rest ih => intro k; simp [numberFrom, ih, List.range'_succ]

theorem numberFrom_length (l : List ℕ) : ∀ k, (numberFrom k l).length = l.length := by
  induction l with
  | nil => intro k; rfl
  | cons a rest ih => intro k; simp [numberFrom, ih]

theorem renumber_mapping_eq (names : List Tok) :
    renumber_mapping names
      = numberFrom 1 (firstAppearances (names.filterMap extract_digits_int)) := by
  rw [renumber_mapping, seenFold_eq names []]
  congr 1
  simp

/-- C3: BuildMapping renumbering.  For every list of field values the
mapping pairs the distinct first-digit-run values, in order of first
appearance (the firstAppearances of the extracted values), with the
sequential integers 1..N; values without a digit run are excluded by the
filterMap; in particular og_7, og_3, og_7, og_9 produce the mapping
7 to 1, 3 to 2, 9 to 3. -/
theorem c3_build_mapping (names : List Tok) :
    renumber_mapping names
        = numberFrom 1 (firstAppearances (names.filterMap extract_digits_int))
    ∧ ((renumber_mapping names).map Prod.fst).Nodup
    ∧ (∀ v, v ∈ (renumber_mapping names).map Prod.fst ↔ v ∈ names.filterMap extract_digits_int)
    ∧ (renumber_mapping names).map Prod.snd = List.range' 1 (renumber_mapping names).length
    ∧ renumber_mapping ["og_7".toList, "og_3".toList, "og_7".toList, "og_9".toList]
        = [(7, 1), (3, 2), (9, 3)] := by
  have he := renumber_mapping_eq names
  refine ⟨he, ?_, ?_, ?_, by decide⟩
  · rw [he, numberFrom_map_fst]
    exact firstAppearances_nodup _
  · intro v
    rw [he, numberFrom_map_fst]
    exact mem_firstAppearances _ v
  · rw [he, numberFrom_map_snd, numberFrom_length]

theorem replace_no_digit (s : Tok) (n : ℕ) (h : ∀ c ∈ s, c.isDigit = false) :
    replace_first_digit_group s n = s := by
  simp only [replace_first_digit_group]
  rw [if_pos]
  rw [List.dropWhile_eq_nil_iff.mpr (by intro x hx; simp [h x hx])]
  rfl

theorem replace_decomposition (pre run suf : Tok) (n : ℕ)
    (hpre : ∀ c ∈ pre, c.isDigit = false) (hrun : run ≠ [])
    (hdig : ∀ c ∈ run, c.isDigit = true)
    (hsuf : ∀ c ∈ suf.take 1, c.isDigit = false) :
    replace_first_digit_group (pre ++ run ++ suf) n = pre ++ natDigits n ++ suf := by
  have hpre2 : ∀ c ∈ pre, (!c.isDigit) = true := by intro c hc; simp [hpre c hc]
  obtain ⟨r0, rs, rfl⟩ : ∃ r0 rs, run = r0 :: rs := by
    cases run with
    | nil => exact absurd rfl hrun
    | cons a l => exact ⟨a, l, rfl⟩
  have hr0 : r0.isDigit = true := hdig r0 (List.mem_cons_self r0 rs)
  have hrs : ∀ c ∈ rs, c.isDigit = true := fun c hc => hdig c (List.mem_cons_of_mem r0 hc)
  have hnd : ¬((!r0.isDigit) = true) := by simp [hr0]
  have hdw : List.dropWhile (fun c => c.isDigit) (r0 :: (rs ++ suf)) = suf := by
    rw [List.dropWhile_cons, if_pos (by simp [hr0]), dropWhile_append_all hrs]
    cases suf with
    | nil => rfl
    | cons c cs => rw [List.dropWhile_cons, if_neg (by simp [hsuf c (by simp)])]
  simp only [replace_first_digit_group, List.append_assoc]
  rw [takeWhile_append_all hpre2, dropWhile_append_all hpre2]
  rw [List.cons_append, List.takeWhile_cons, List.dropWhile_cons]
  rw [if_neg hnd, if_neg hnd]
  rw [if_neg (by simp)]
  rw [hdw]
  simp

theorem mapOpticsGroup_absent (m : List (ℕ × ℕ)) (v : ℕ)
    (h : lookupMapping m v = none) : mapOpticsGroup m v = v := by
  simp [mapOpticsGroup, h]

/-- C6: ApplyMapping.  A formatted name has only its first digit run
replaced by the mapped integer, all surrounding characters unchanged (and
is untouched when it holds no digit); a pure integer group ID is mapped
through the association list and passes through unchanged when absent
from the mapping. -/
theorem c6_apply_mapping :
    (∀ s n, (∀ c ∈ s, c.isDigit = false) → replace_first_digit_group s n = s)
    ∧ (∀ pre run suf n, (∀ c ∈ pre, c.isDigit = false) → run ≠ [] →
        (∀ c ∈ run, c.isDigit = true) → (∀ c ∈ suf.take 1, c.isDigit = false) →
        replace_first_digit_group (pre ++ run ++ suf) n = pre ++ natDigits n ++ suf)
    ∧ (∀ m v, lookupMapping m v = none → mapOpticsGroup m v = v)
    ∧ replace_first_digit_group "og_9".toList 3 = "og_3".toList
    ∧ mapOpticsGroup [(7, 1), (3, 2), (9, 3)] 5 = 5 :=
  ⟨replace_no_digit, replace_decomposition, mapOpticsGroup_absent, by decide, by decide⟩

/-- C7: predicate filtering is order-preserving (the kept records form a
sublist of the input, hence appear in input order) and idempotent
(filtering an already-filtered list with the same predicate returns the
same list). -/
theorem c7_filter_props (entries : List LstRecord) (param : Option Tok)
    (gt lt : Option ℚ) (useAbs : Bool) :
    (read_lst_filter entries param gt lt useAbs).Sublist entries
    ∧ read_lst_filter (read_lst_filter entries param gt lt useAbs) param gt lt useAbs
        = read_lst_filter entries param gt lt useAbs := by
  constructor
  · exact List.filter_sublist _
  · simp [read_lst_filter, List.filter_filter]

theorem filterBlock_no_image (keep : List Tok) (b : ColBlock)
    (h : hasImageName b = false) : filterBlock keep b = some b := by
  simp [filterBlock, h]

/-- C10: frame property of STAR filtering.  Every block without the
rlnImageName column is passed through filter_star unchanged (same keys
and values) and appears in the output document. -/
theorem c10_frame_props (star : List (Tok × ColBlock)) (keep : List Tok) :
    ∀ nb ∈ star, hasImageName nb.2 = false →
      filterBlock keep nb.2 = some nb.2 ∧ nb ∈ (filter_star star keep).1 := by
  intro nb hmem h
  refine ⟨filterBlock_no_image keep nb.2 h, ?_⟩
  simp only [filter_star, List.mem_filterMap]
  exact ⟨nb, hmem, by rw [filterBlock_no_image keep nb.2 h]; rfl⟩

/-- C8 (amended): empty-result behaviour of the lst2star run.  When the
LST filtering keeps zero records the run exits with status 1 and no
output file is opened; when the STAR filtering keeps zero particle rows
the run still exits with status 1 with a descriptive message, but the
output file, holding the surviving non-particle blocks, has already been
written by filter_star before the check. -/
theorem c8_empty_result (entries : List LstRecord) (param : Option Tok)
    (gt lt : Option ℚ) (useAbs : Bool) (star : List (Tok × ColBlock)) :
    (read_lst_tags entries param gt lt useAbs = [] →
      lst2star_main entries param gt lt useAbs star = ⟨1, none⟩)
    ∧ (read_lst_tags entries param gt lt useAbs ≠ [] →
        (filter_star star (read_lst_tags entries param gt lt useAbs)).2 = 0 →
        (lst2star_main entries param gt lt useAbs star).exitCode = 1
        ∧ (lst2star_main entries param gt lt useAbs star).written
            = some (filter_star star (read_lst_tags entries param gt lt useAbs)).1) := by
  constructor
  · intro h
    simp [lst2star_main, h]
  · intro h1 h2
    rw [lst2star_main]
    rw [if_neg (by simp [List.isEmpty_iff, h1])]
    rw [if_pos h2]
    exact ⟨rfl, rfl⟩

theorem mergeRows_eq_filterMap (files : List (Tok × List Line)) (ls : List Line) :
    mergeRows files ls = ls.filterMap (resolveRow files) := by
  induction ls with
  | nil => rfl
  | cons parts rest ih =>
    rw [mergeRows, List.filterMap_cons]
    cases resolveRow files parts with
    | none => exact ih
    | some m => rw [ih]

/-- C9 (amended): cross-reference mismatch handling in merge_lst.  The
merge aborts only when lst1 has no usable line at all; every usable lst1
row is resolved independently and a row whose index is out of range in
the linked lst2 file is skipped with a warning, so a retained-row count
mismatch truncates the join to the resolvable rows instead of aborting. -/
theorem c9_merge_behaviour (lines1 : List Line) (files : List (Tok × List Line))
    (h : cleanLines lines1 ≠ []) :
    merge_lst lines1 files = some ((cleanLines lines1).filterMap (resolveRow files)) := by
  rw [merge_lst, if_neg (by simp [List.isEmpty_iff, h]), mergeRows_eq_filterMap]

/-! ### Binning lemmas (C2, C4) -/

theorem appendAt_length {α : Type} (bs : List (List α)) (i : ℕ) (e : α) :
    (appendAt bs i e).length = bs.length := by
  induction bs generalizing i with
  | nil => rfl
  | cons b rest ih =>
    cases i with
    | zero => rfl
    | succ n => simp [appendAt, ih]

theorem appendAt_getD_eq {α : Type} (bs : List (List α)) (i : ℕ) (e : α)
    (h : i < bs.length) :
    (appendAt bs i e).getD i [] = bs.getD i [] ++ [e] := by
  induction bs generalizing i with
  | nil => simp at h
  | cons b rest ih =>
    cases i with
    | zero => rfl
    | succ n =>
      simp only [appendAt, List.getD_cons_succ]
      exact ih n (by simpa using h)

theorem appendAt_getD_ne {α : Type} (bs : List (List α)) (i j : ℕ) (e : α)
    (h : i ≠ j) :
    (appendAt bs i e).getD j [] = bs.getD j [] := by
  induction bs generalizing i j with
  | nil => rfl
  | cons b rest ih =>
    cases i with
    | zero =>
      cases j with
      | zero => exact absurd rfl h
      | succ m => rfl
    | succ n =>
      cases j with
      | zero => rfl
      | succ m =>
        simp only [appendAt, List.getD_cons_succ]
        exact ih n m (by omega)

theorem binFold_snd (bins : ℕ) (vmin vmax : ℚ) (es : List HEntry) :
    ∀ (bs : List (List HEntry)) (k : ℕ),
      (es.foldl (binStep bins vmin vmax) (bs, k)).2
        = k + (es.filter fun e => classifyEnt bins vmin vmax e = none).length := by
  induction es with
  | nil => intro bs k; simp
  | cons e rest ih =>
    intro bs k
    rw [List.foldl_cons]
    cases hge : classifyEnt bins vmin vmax e with
    | none =>
      rw [show binStep bins vmin vmax (bs, k) e = (bs, k + 1) by simp [binStep, hge]]
      rw [ih bs (k + 1), List.filter_cons_of_pos (by simp [hge])]
      simp
      omega
    | some i =>
      rw [show binStep bins vmin vmax (bs, k) e = (appendAt bs i e, k) by simp [binStep, hge]]
      rw [ih (appendAt bs i e) k, List.filter_cons_of_neg (by simp [hge])]

theorem binFold_fst (bins : ℕ) (vmin vmax : ℚ) (es : List HEntry) :
    ∀ (bs : List (List HEntry)) (k : ℕ) (j : ℕ),
      (∀ e ∈ es, ∀ i, classifyEnt bins vmin vmax e = some i → i < bs.length) →
      ((es.foldl (binStep bins vmin vmax) (bs, k)).1).getD j []
        = bs.getD j [] ++ (es.filter fun e => classifyEnt bins vmin vmax e = some j) := by
  induction es with
  | nil => intro bs k j _; simp
  | cons e rest ih =>
    intro bs k j hlen
    rw [List.foldl_cons]
    cases hge : classifyEnt bins vmin vmax e with
    | none =>
      rw [show binStep bins vmin vmax (bs, k) e = (bs, k + 1) by simp [binStep, hge]]
      rw [ih bs (k + 1) j (fun x hx => hlen x (List.mem_cons_of_mem e hx)),
        List.filter_cons_of_neg (by simp [hge])]
    | some i =>
      rw [show binStep bins vmin vmax (bs, k) e = (appendAt bs i e, k) by simp [binStep, hge]]
      have hlen2 : ∀ x ∈ rest, ∀ i2,
          classifyEnt bins vmin vmax x = some i2 → i2 < (appendAt bs i e).length := by
        intro x hx i2 hg2
        rw [appendAt_length]
        exact hlen x (List.mem_cons_of_mem e hx) i2 hg2
      rw [ih (appendAt bs i e) k j hlen2]
      by_cases hij : i = j
      · subst hij
        rw [appendAt_getD_eq bs i e
          (hlen e (List.mem_cons_self e rest) i hge),
          List.filter_cons_of_pos (by simp [hge]), List.append_assoc]
        rfl
      · rw [appendAt_getD_ne bs i j e hij,
          List.filter_cons_of_neg (by simp [hge, hij])]

theorem codeBinIdx_eq_spec (bins : ℕ) (vmin vmax val : ℚ)
    (h1 : 1 ≤ bins) (h2 : vmin < vmax) (hlo : vmin ≤ val) (hhi : val ≤ vmax) :
    codeBinIdx bins vmin vmax val
      = if val = vmax then bins - 1
        else min (⌊(val - vmin) / ((vmax - vmin) / (bins : ℚ))⌋.toNat) (bins - 1) := by
  by_cases hv : val = vmax
  · simp [codeBinIdx, hv]
  · have hlt : val < vmax := lt_of_le_of_ne hhi hv
    have hbins0 : (0 : ℚ) < (bins : ℚ) := by
      have h0 : (0 : ℕ) < bins := h1
      exact_mod_cast h0
    have hstep : (0 : ℚ) < (vmax - vmin) / (bins : ℚ) :=
      div_pos (by linarith) hbins0
    have hq0 : (0 : ℚ) ≤ (val - vmin) / ((vmax - vmin) / (bins : ℚ)) :=
      div_nonneg (by linarith) (le_of_lt hstep)
    have hqlt : (val - vmin) / ((vmax - vmin) / (bins : ℚ)) < (bins : ℚ) := by
      rw [div_lt_iff₀ hstep]
      have hb : (bins : ℚ) * ((vmax - vmin) / (bins : ℚ)) = vmax - vmin := by
        field_simp
      rw [hb]
      linarith
    have hfl0 : (0 : ℤ) ≤ ⌊(val - vmin) / ((vmax - vmin) / (bins : ℚ))⌋ :=
      Int.floor_nonneg.mpr hq0
    have hflI : ⌊(val - vmin) / ((vmax - vmin) / (bins : ℚ))⌋ < (bins : ℤ) := by
      rw [Int.floor_lt]
      exact_mod_cast hqlt
    rw [codeBinIdx, if_neg hv, if_neg hv]
    simp only [pyint, if_pos hq0]
    rw [if_neg (by omega), if_neg (by omega)]
    omega

theorem classifyEnt_eq_spec (bins : ℕ) (vmin vmax : ℚ) (e : HEntry)
    (h1 : 1 ≤ bins) (h2 : vmin < vmax) :
    classifyEnt bins vmin vmax e = binIndexSpec bins vmin vmax e.2 := by
  rcases e with ⟨t, _ | val⟩
  · rfl
  · simp only [classifyEnt, binIndexSpec]
    by_cases hout : val < vmin ∨ vmax < val
    · rw [if_pos hout, if_pos hout]
    · rw [if_neg hout, if_neg hout]
      push_neg at hout
      rw [codeBinIdx_eq_spec bins vmin vmax val h1 h2 hout.1 hout.2]
      by_cases hv : val = vmax
      · rw [if_pos hv, if_pos hv]
      · rw [if_neg hv, if_neg hv]

theorem binIndexSpec_lt (bins : ℕ) (vmin vmax : ℚ) (v : Option ℚ) (j : ℕ)
    (h1 : 1 ≤ bins) (h : binIndexSpec bins vmin vmax v = some j) : j < bins := by
  rcases v with _ | val
  · cases h
  · simp only [binIndexSpec] at h
    by_cases hout : val < vmin ∨ vmax < val
    · rw [if_pos hout] at h; cases h
    · rw [if_neg hout] at h
      by_cases hv : val = vmax
      · rw [if_pos hv] at h
        injection h with h
        omega
      · rw [if_neg hv] at h
        injection h with h
        have hm := Nat.min_le_right
          (⌊(val - vmin) / ((vmax - vmin) / (bins : ℚ))⌋.toNat) (bins - 1)
        omega

theorem getD_replicate_nil {α : Type} (n j : ℕ) :
    (List.replicate n ([] : List α)).getD j [] = [] := by
  induction n generalizing j with
  | zero => rfl
  | succ m ih =>
    cases j with
    | zero => rfl
    | succ j2 => simpa [List.replicate_succ, List.getD_cons_succ] using ih j2

/-- C2: equal-width binning.  For 1 <= bins and vmin < vmax,
`assign_bins` succeeds; the edges are `vmin + i * (vmax - vmin) / bins`;
bucket j holds exactly, and in input order, the entries whose claim-side
index (floor of `(v - vmin) / step` clamped to `[0, bins - 1]`, the value
`vmax` forced into the last bucket, out-of-range or non-finite values
skipped) is j; the skip counter counts the skipped entries. -/
theorem c2_assign_bins (entries : List HEntry) (bins : ℕ) (vmin vmax : ℚ)
    (h1 : 1 ≤ bins) (h2 : vmin < vmax) :
    ∃ buckets edges skipped,
      assign_bins entries bins vmin vmax = some (buckets, edges, skipped)
      ∧ edges = (List.range (bins + 1)).map
          (fun i : ℕ => vmin + (i : ℚ) * ((vmax - vmin) / (bins : ℚ)))
      ∧ buckets.length = bins
      ∧ (∀ j, buckets.getD j []
          = entries.filter fun e => binIndexSpec bins vmin vmax e.2 = some j)
      ∧ skipped = (entries.filter fun e => binIndexSpec bins vmin vmax e.2 = none).length := by
  have hlenfold : ∀ (es : List HEntry) (bs : List (List HEntry)) (k : ℕ),
      ((es.foldl (binStep bins vmin vmax) (bs, k)).1).length = bs.length := by
    intro es
    induction es with
    | nil => intro bs k; rfl
    | cons e rest ih =>
      intro bs k
      rw [List.foldl_cons]
      cases hge : classifyEnt bins vmin vmax e with
      | none =>
        rw [show binStep bins vmin vmax (bs, k) e = (bs, k + 1) by simp [binStep, hge]]
        rw [ih bs (k + 1)]
      | some i =>
        rw [show binStep bins vmin vmax (bs, k) e = (appendAt bs i e, k) by simp [binStep, hge]]
        rw [ih (appendAt bs i e) k, appendAt_length]
  rw [assign_bins, if_neg (by omega)]
  refine ⟨_, _, _, rfl, rfl, ?_, ?_, ?_⟩
  · rw [hlenfold entries (List.replicate bins []) 0, List.length_replicate]
  · intro j
    rw [binFold_fst bins vmin vmax entries
      (List.replicate bins []) 0 j
      (by
        intro e _ i hg
        rw [classifyEnt_eq_spec bins vmin vmax e h1 h2] at hg
        rw [List.length_replicate]
        exact binIndexSpec_lt bins vmin vmax e.2 i h1 hg)]
    rw [getD_replicate_nil, List.nil_append]
    apply List.filter_congr
    intro e _
    rw [classifyEnt_eq_spec bins vmin vmax e h1 h2]
  · rw [binFold_snd bins vmin vmax entries (List.replicate bins []) 0]
    rw [Nat.zero_add]
    congr 1
    apply List.filter_congr
    intro e _
    rw [classifyEnt_eq_spec bins vmin vmax e h1 h2]

theorem pySlice_append {α : Type} (l : List α) (s e e2 : ℕ)
    (h1 : s ≤ e) (h2 : e ≤ e2) :
    pySlice l s e ++ pySlice l e e2 = pySlice l s e2 := by
  simp only [pySlice]
  have hsplit2 : l.take e2 = l.take e ++ (l.take e2).drop e := by
    conv_lhs => rw [← List.take_append_drop e (l.take e2)]
    rw [List.take_take, min_eq_left h2]
  conv_rhs => rw [hsplit2]
  rw [List.drop_append_eq_append_drop]
  by_cases hs : s ≤ (l.take e).length
  · rw [Nat.sub_eq_zero_of_le hs, List.drop_zero]
  · push_neg at hs
    rw [List.length_take] at hs
    have hlen : l.length < s := by
      rcases le_total e l.length with hel | hel
      · rw [min_eq_left hel] at hs; omega
      · rw [min_eq_right hel] at hs; omega
    have d1 : (l.take e).drop s = [] := by
      apply List.drop_eq_nil_of_le
      rw [List.length_take]
      omega
    have d2 : (l.take e2).drop e = [] := by
      apply List.drop_eq_nil_of_le
      rw [List.length_take]
      omega
    rw [d1, d2]
    simp

theorem pySlice_cross {α : Type} (r : α → α → Prop) (l : List α)
    (hp : List.Pairwise r l) (s1 e1 s2 e2 : ℕ) (h : e1 ≤ s2)
    (a b : α) (ha : a ∈ pySlice l s1 e1) (hb : b ∈ pySlice l s2 e2) : r a b := by
  have ha2 : a ∈ l.take s2 := by
    have : a ∈ l.take e1 := (List.drop_subset _ _) ha
    rw [show l.take e1 = (l.take s2).take e1 from by
      rw [List.take_take, min_eq_left h]] at this
    exact (List.take_subset _ _) this
  have hb2 : b ∈ l.drop s2 := by
    have := hb
    simp only [pySlice] at this
    rw [List.drop_take] at this
    exact (List.take_subset _ _) this
  have hsplit := List.take_append_drop s2 l
  rw [← hsplit] at hp
  exact ((List.pairwise_append.mp hp).2.2) a ha2 b hb2

/-- C4: equal-count binning with 10 in-range entries and 4 buckets.  The
call succeeds, the buckets are the slices of the stable value-sorted
in-range entries at the cut indices `round(i * 10 / 4)` (= 0, 2, 5, 8,
10), each bucket has 2 or 3 entries, the buckets concatenate back to the
sorted in-range list (exhaustive contiguous partition), buckets are
non-decreasing in value across bucket boundaries, and the skipped count
is the number of out-of-range entries. -/
theorem c4_same_size (entries : List HEntry) (vmin vmax : ℚ)
    (hlen : (entries.filter (inRangeB vmin vmax)).length = 10) :
    ∃ buckets edges skipped,
      assign_bins_same_size entries 4 vmin vmax = some (buckets, edges, skipped)
      ∧ buckets
          = [pySlice ((entries.filter (inRangeB vmin vmax)).insertionSort valLe) 0 2,
             pySlice ((entries.filter (inRangeB vmin vmax)).insertionSort valLe) 2 5,
             pySlice ((entries.filter (inRangeB vmin vmax)).insertionSort valLe) 5 8,
             pySlice ((entries.filter (inRangeB vmin vmax)).insertionSort valLe) 8 10]
      ∧ buckets.map List.length = [2, 3, 3, 2]
      ∧ (∀ b ∈ buckets, b.length = 2 ∨ b.length = 3)
      ∧ buckets.flatten = (entries.filter (inRangeB vmin vmax)).insertionSort valLe
      ∧ (∀ i j a b2, i < j → a ∈ buckets.getD i [] → b2 ∈ buckets.getD j [] →
          entryVal a ≤ entryVal b2)
      ∧ skipped = entries.length - 10
      ∧ skipped = (entries.filter fun e => !inRangeB vmin vmax e).length := by
  have hS : ((entries.filter (inRangeB vmin vmax)).insertionSort valLe).length = 10 := by
    rw [List.length_insertionSort]
    exact hlen
  have hcuts : sameSizeCuts 4
      ((entries.filter (inRangeB vmin vmax)).insertionSort valLe).length
      = [0, 2, 5, 8, 10] := by
    rw [hS, sameSizeCuts]
    rw [show List.range (4 + 1) = [0, 1, 2, 3, 4] from rfl]
    simp only [List.map_cons, List.map_nil]
    norm_num [pyround, Int.fract]
    decide
  have hne : ¬(entries.filter (inRangeB vmin vmax)).isEmpty = true := by
    rw [List.isEmpty_iff]
    intro h0
    rw [h0] at hlen
    simp at hlen
  have hsorted : List.Pairwise valLe
      ((entries.filter (inRangeB vmin vmax)).insertionSort valLe) :=
    List.sorted_insertionSort valLe _
  rw [assign_bins_same_size, if_neg (by decide), if_neg hne]
  have hbuckets : sameSizeBuckets
        ((entries.filter (inRangeB vmin vmax)).insertionSort valLe)
        (sameSizeCuts 4 ((entries.filter (inRangeB vmin vmax)).insertionSort valLe).length) 4
      = [pySlice ((entries.filter (inRangeB vmin vmax)).insertionSort valLe) 0 2,
         pySlice ((entries.filter (inRangeB vmin vmax)).insertionSort valLe) 2 5,
         pySlice ((entries.filter (inRangeB vmin vmax)).insertionSort valLe) 5 8,
         pySlice ((entries.filter (inRangeB vmin vmax)).insertionSort valLe) 8 10] := by
    rw [hcuts]
    rfl
  have hmap : ([pySlice ((entries.filter (inRangeB vmin vmax)).insertionSort valLe) 0 2,
      pySlice ((entries.filter (inRangeB vmin vmax)).insertionSort valLe) 2 5,
      pySlice ((entries.filter (inRangeB vmin vmax)).insertionSort valLe) 5 8,
      pySlice ((entries.filter (inRangeB vmin vmax)).insertionSort valLe) 8 10]).map
        List.length = [2, 3, 3, 2] := by
    simp [pySlice, hS]
  have hout : entries.length - (entries.filter (inRangeB vmin vmax)).length
      = (entries.filter fun e => !inRangeB vmin vmax e).length := by
    have := List.length_eq_length_filter_add (l := entries) (inRangeB vmin vmax)
    omega
  refine ⟨_, _, _, rfl, hbuckets, ?_, ?_, ?_, ?_, ?_, ?_⟩
  · rw [hbuckets, hmap]
  · intro b hb
    rw [hbuckets] at hb
    have hmem : b.length ∈ ([2, 3, 3, 2] : List ℕ) := by
      rw [← hmap]
      exact List.mem_map_of_mem List.length hb
    simp at hmem
    omega
  · rw [hbuckets]
    simp only [List.flatten]
    rw [List.append_nil,
      pySlice_append _ 5 8 10 (by omega) (by omega),
      pySlice_append _ 2 5 10 (by omega) (by omega),
      pySlice_append _ 0 2 10 (by omega) (by omega)]
    simp only [pySlice, List.drop_zero]
    rw [← hS, List.take_length]
  · intro i j a b2 hij ha hb
    rw [hbuckets] at ha hb
    by_cases hj4 : j < 4
    · interval_cases j <;> interval_cases i <;>
        (simp only [List.getD_cons_zero, List.getD_cons_succ] at ha hb) <;>
        exact pySlice_cross valLe _ hsorted _ _ _ _ (by omega) a b2 ha hb
    · have : ([pySlice ((entries.filter (inRangeB vmin vmax)).insertionSort valLe) 0 2,
          pySlice ((entries.filter (inRangeB vmin vmax)).insertionSort valLe) 2 5,
          pySlice ((entries.filter (inRangeB vmin vmax)).insertionSort valLe) 5 8,
          pySlice ((entries.filter (inRangeB vmin vmax)).insertionSort valLe) 8 10]).getD
            j [] = [] := by
        apply List.getD_eq_default
        simp
        omega
      rw [this] at hb
      cases hb
  · omega
  · exact hout

/-! ### Claim theorems -/

/-- C1: STAR codec round-trip.  For every text (sequence of token lines)
parseable into a StarDocument, parsing the serialization of the parsed
document yields a document structurally equal to the first parse: same
block order, same column order, same row token sequences.  Whitespace is
already quotiented out by the token-line representation. -/
theorem c1_star_codec_roundtrip (ls : List Line) :
    parse (serialize (parse ls)) = parse ls :=
  parse_serialize_of_wf (parse ls) (wf_parse ls)

/-- C1 witness: the round-trip law instantiated at a concrete STAR text. -/
theorem c1_star_codec_roundtrip_witness :
    parse (serialize (parse exStarText)) = parse exStarText :=
  c1_star_codec_roundtrip exStarText

/-- C2 witness: equal-width binning at bins 5 over [0, 10]: the value 10
lands in bucket 4, the value 2 in bucket 1, the value -1/2 is skipped, and
the claim theorem instantiated at the concrete entries. -/
theorem c2_assign_bins_witness :
    (1 ≤ 5 ∧ (0 : ℚ) < 10)
    ∧ binIndexSpec 5 0 10 (some 10) = some 4
    ∧ binIndexSpec 5 0 10 (some 2) = some 1
    ∧ binIndexSpec 5 0 10 (some (-(1 : ℚ) / 2)) = none
    ∧ (∃ buckets edges skipped,
        assign_bins exHist 5 0 10 = some (buckets, edges, skipped)
        ∧ edges = (List.range (5 + 1)).map
            (fun i : ℕ => (0 : ℚ) + (i : ℚ) * ((10 - 0) / ((5 : ℕ) : ℚ)))
        ∧ buckets.length = 5
        ∧ (∀ j, buckets.getD j []
            = exHist.filter fun e => binIndexSpec 5 0 10 e.2 = some j)
        ∧ skipped = (exHist.filter fun e => binIndexSpec 5 0 10 e.2 = none).length) :=
  ⟨⟨by norm_num, by norm_num⟩, by norm_num [binIndexSpec], by norm_num [binIndexSpec],
   by norm_num [binIndexSpec], c2_assign_bins exHist 5 0 10 (by norm_num) (by norm_num)⟩

/-- C3 witness: the mapping law instantiated at the og_7, og_3, og_7, og_9
example. -/
theorem c3_build_mapping_witness :
    renumber_mapping ["og_7".toList, "og_3".toList, "og_7".toList, "og_9".toList]
      = [(7, 1), (3, 2), (9, 3)] :=
  (c3_build_mapping ["og_7".toList, "og_3".toList, "og_7".toList, "og_9".toList]).2.2.2.2

/-- C4 witness: ten distinct in-range entries and four buckets give bucket
sizes 2, 3, 3, 2. -/
theorem c4_same_size_witness :
    (exTen.filter (inRangeB 0 100)).length = 10
    ∧ (∃ buckets edges skipped,
        assign_bins_same_size exTen 4 0 100 = some (buckets, edges, skipped)
        ∧ buckets.map List.length = [2, 3, 3, 2]) := by
  have hl : (exTen.filter (inRangeB 0 100)).length = 10 := by
    norm_num [exTen, inRangeB, List.filter_cons]
  refine ⟨hl, ?_⟩
  obtain ⟨b, e, s, h1, _, h3, _⟩ := c4_same_size exTen 0 100 hl
  exact ⟨b, e, s, h1, h3⟩

/-- C5 witness: the tag law instantiated at index 41, path stack.mrcs. -/
theorem c5_image_tag_witness :
    mkImageTag 41 "stack.mrcs".toList = "000042@stack.mrcs".toList
    ∧ digitsVal (natDigits 42) = 42 :=
  ⟨(c5_image_tag 41 "stack.mrcs".toList).2.2.2.2,
   (c5_image_tag 41 "stack.mrcs".toList).2.1⟩

/-- C6 witness: the decomposition law applied to og_9 with new number 3
(prefix og_, digit run 9, empty suffix), and pass-through at an absent
key. -/
theorem c6_apply_mapping_witness :
    replace_first_digit_group ("og_".toList ++ "9".toList ++ []) 3
        = "og_".toList ++ natDigits 3 ++ []
    ∧ mapOpticsGroup [(7, 1), (3, 2), (9, 3)] 5 = 5 :=
  ⟨c6_apply_mapping.2.1 "og_".toList "9".toList [] 3
      (by decide) (by decide) (by decide) (by decide),
   c6_apply_mapping.2.2.1 [(7, 1), (3, 2), (9, 3)] 5 (by decide)⟩

/-- C7 witness: order preservation and idempotence at a concrete record
list and predicate. -/
theorem c7_filter_props_witness :
    (read_lst_filter [exRecord] (some "score".toList) (some 0) none false).Sublist [exRecord]
    ∧ read_lst_filter
        (read_lst_filter [exRecord] (some "score".toList) (some 0) none false)
        (some "score".toList) (some 0) none false
      = read_lst_filter [exRecord] (some "score".toList) (some 0) none false :=
  c7_filter_props [exRecord] (some "score".toList) (some 0) none false

/-- C8 counterexample: a run in which the STAR filtering keeps zero
records exits non-zero, but an output file (the optics block) HAS been
written, refuting the claim that no output file is ever written on an
empty result. -/
theorem c8_counterexample :
    (lst2star_main [exRecord] none none none false exStar).exitCode = 1
    ∧ (lst2star_main [exRecord] none none none false exStar).written
        = some [("optics".toList, [("rlnVoltage".toList, ["300".toList])])] := by
  decide

/-- C8 witness: the amended behaviour at the concrete zero-match run. -/
theorem c8_empty_result_witness :
    read_lst_tags [exRecord] none none none false ≠ []
    ∧ (filter_star exStar (read_lst_tags [exRecord] none none none false)).2 = 0
    ∧ (lst2star_main [exRecord] none none none false exStar).exitCode = 1
    ∧ (lst2star_main [exRecord] none none none false exStar).written
        = some (filter_star exStar (read_lst_tags [exRecord] none none none false)).1 :=
  ⟨by decide, by decide,
   ((c8_empty_result [exRecord] none none none false exStar).2 (by decide) (by decide)).1,
   ((c8_empty_result [exRecord] none none none false exStar).2 (by decide) (by decide)).2⟩

/-- C9 counterexample: lst1 has two retained rows, the linked lst2 only
one, yet merge_lst succeeds and silently truncates to the single
resolvable row instead of reporting an error. -/
theorem c9_counterexample :
    merge_lst exLst1 [("in.lst".toList, exLst2)]
      = some [["7".toList, "a.mrcs".toList, "score=1".toList]] := by
  decide

/-- C9 witness: the amended no-abort law at the mismatched concrete
input. -/
theorem c9_merge_behaviour_witness :
    merge_lst exLst1 [("in.lst".toList, exLst2)]
      = some ((cleanLines exLst1).filterMap
          (resolveRow [("in.lst".toList, exLst2)])) :=
  c9_merge_behaviour exLst1 [("in.lst".toList, exLst2)] (by decide)

/-- C10 witness: the optics block (no rlnImageName) of the concrete STAR
document survives filtering unchanged. -/
theorem c10_frame_props_witness :
    filterBlock ["000042@stack.mrcs".toList]
        [("rlnVoltage".toList, ["300".toList])]
      = some [("rlnVoltage".toList, ["300".toList])]
    ∧ ("optics".toList, [("rlnVoltage".toList, ["300".toList])])
        ∈ (filter_star exStar ["000042@stack.mrcs".toList]).1 :=
  c10_frame_props exStar ["000042@stack.mrcs".toList]
    ("optics".toList, [("rlnVoltage".toList, ["300".toList])]) (by decide) (by decide)

end NiLab
